import Mathlib

/-!
# Verification of the worklogr core against its specification

Shallow embedding of the worklogr collector, persistence, retry and token
storage code. Go `time.Time` values are modelled as `Int` UTC instants in
nanoseconds (`t.After(u)` is `u < t`); Go maps keyed by strings are modelled
as association lists with Go assignment semantics (replace the binding in
place, otherwise append); SQLite tables are modelled as association lists
keyed by their primary-key column.
-/

namespace Worklogr

/-- Embeds `config.EventAttachment` (src/internal/config, used by sqlite.go). -/
structure EventAttachment where
  FileID : String
  Title : String
  MimeType : String
  ExportAs : String
  TextFull : String
  Truncated : Bool
deriving DecidableEq, Repr

/-- Embeds `config.Event`, the canonical collected activity record.  `Timestamp` is
the UTC instant in nanoseconds; the Go field `Type` is renamed `EventType`
because `Type` is reserved in Lean. -/
structure Event where
  ID : String
  Service : String
  EventType : String
  Title : String
  Content : String
  Timestamp : Int
  Metadata : String
  UserID : String
  Attachments : List EventAttachment
deriving DecidableEq, Repr

/-- Go `a.After(b)` on instants. -/
def tsAfter (a b : Int) : Bool := b < a

/-- One nanosecond count of `time.Second`. -/
def secondNs : Int := 1000000000

/-- Nanoseconds of `time.Minute`. -/
def minuteNs : Int := 60 * secondNs

/-- Nanoseconds of `365 * 24 * time.Hour`. -/
def yearNs : Int := 365 * 24 * 3600 * secondNs

/-- Embeds `EventCollector.ValidateTimeRange` (sqlite.go lines 1151-1166, identical
to part_002 lines 378-393 and, on instants, to
`TimezoneManager.ValidateTimeRange` in timezone.go lines 131-150: `In`/
`ConvertToTimezone` does not change the instant being compared).
`now` is the value read from `time.Now()`. -/
def ValidateTimeRange (now startTime endTime : Int) : Option String :=
  if tsAfter startTime endTime then
    some "start time cannot be after end time"
  else if tsAfter endTime now then
    some "end time cannot be in the future"
  else if endTime - startTime > yearNs then
    some "time range cannot exceed 1 year"
  else
    none

/-- The classification of a `Retry-After` header value made by
`getRetryAfterDelay` (part_004 lines 1083-1115): the header is absent, or
`strconv.Atoi` succeeds with `n`, or `time.Parse(time.RFC1123)` succeeds and
`time.Until` of the parsed instant is `untilRetry` nanoseconds, or neither
parse succeeds. Every header string falls in exactly one class. -/
inductive RetryAfterValue where
  | absent
  | seconds (n : Int)
  | httpDate (untilRetry : Int)
  | unparseable
deriving DecidableEq, Repr

/-- Embeds `getRetryAfterDelay` (part_004 lines 1083-1115); result is the returned
`time.Duration` in nanoseconds. -/
def getRetryAfterDelay : RetryAfterValue → Int
  | .absent => 60 * secondNs
  | .seconds n =>
      let capped := if n > 300 then 300 else n
      let floored := if capped < 1 then 1 else capped
      floored * secondNs
  | .httpDate untilRetry =>
      let capped := if untilRetry > 5 * minuteNs then 5 * minuteNs else untilRetry
      let floored := if capped < 1 * secondNs then 1 * secondNs else capped
      floored
  | .unparseable => 60 * secondNs

/-! ## The concurrent collector (sqlite.go lines 952-1122, part_002 lines
199-349; both variants compute the same candidate set, merged list and sort,
and have the same single error return). A service client is modelled by the
outcome of its one `CollectEvents` fetch call. -/

/-- Outcome of `client.CollectEvents(startTime, endTime)`. -/
inductive FetchResult where
  | ok (events : List Event)
  | fail
deriving DecidableEq, Repr

/-- Whether the fetch succeeded (`err == nil`). -/
def FetchResult.isOk : FetchResult → Bool
  | .ok _ => true
  | .fail => false

/-- The events returned by a successful fetch; a failed fetch contributes
none. -/
def FetchResult.events : FetchResult → List Event
  | .ok evs => evs
  | .fail => []

/-- Go map lookup `m[k]` on an association-list model. -/
def assocFind {α : Type} : List (String × α) → String → Option α
  | [], _ => none
  | (k, v) :: rest, key => if k = key then some v else assocFind rest key

/-- Go map assignment `m[k] = v`: replace the existing binding in place,
otherwise append a new one. -/
def assocSet {α : Type} : List (String × α) → String → α → List (String × α)
  | [], key, v => [(key, v)]
  | (k, w) :: rest, key, v =>
      if k = key then (key, v) :: rest else (k, w) :: assocSet rest key v

/-- The `servicesToCollect` map of `CollectEvents` (sqlite.go lines 956-967):
with an empty filter it is `ec.services`; otherwise it is rebuilt from the
filter names, skipping names not present in `ec.services` (those only log a
warning). -/
def candidateServices (services : List (String × FetchResult))
    (serviceNames : List String) : List (String × FetchResult) :=
  if serviceNames.isEmpty then services
  else
    serviceNames.foldl
      (fun acc name =>
        match assocFind services name with
        | some client => assocSet acc name client
        | none => acc)
      []

/-- The shared `allEvents` accumulator after all workers have finished
(sqlite.go lines 979-1008): each successful fetch appends its events under
the mutex, a failed fetch returns without appending.  The goroutine
completion order is nondeterministic; this model fixes one order, and the
properties proved below (membership, multiset contents, sortedness, error
condition) are independent of that order. -/
def mergedEvents (toCollect : List (String × FetchResult)) : List Event :=
  toCollect.foldl
    (fun acc p =>
      match p.2 with
      | .ok evs => acc ++ evs
      | .fail => acc)
    []

/-- One truncated bubble pass: the inner loop of `sortEventsByTimestamp`
(sqlite.go lines 1112-1122) for a fixed outer index performs `k` adjacent
comparisons `j` and `j+1` from the left, swapping when the left timestamp is
strictly after the right one. -/
def bubblePassUpTo : Nat → List Event → List Event
  | 0, l => l
  | _ + 1, [] => []
  | _ + 1, [a] => [a]
  | k + 1, a :: b :: rest =>
      if tsAfter a.Timestamp b.Timestamp then b :: bubblePassUpTo k (a :: rest)
      else a :: bubblePassUpTo k (b :: rest)

/-- The outer loop of `sortEventsByTimestamp`: pass `i` of the Go code
performs `n-1-i` comparisons, so the passes perform `n-1, n-2, ..., 1`
comparisons; `sortPasses k` runs the passes with `k, k-1, ..., 1`
comparisons. -/
def sortPasses : Nat → List Event → List Event
  | 0, l => l
  | k + 1, l => sortPasses k (bubblePassUpTo (k + 1) l)

/-- Embeds `EventCollector.sortEventsByTimestamp` (sqlite.go lines 1112-1122,
part_002 lines 339-349). -/
def sortEventsByTimestamp (events : List Event) : List Event :=
  sortPasses (events.length - 1) events

/-- Embeds `EventCollector.CollectEvents` (sqlite.go lines 953-1015, part_002
lines 200-241): restrict to the candidate services, fail only when no
candidate remains, otherwise merge every successful fetch and sort by
timestamp, returning a nil error. -/
def collectEvents (services : List (String × FetchResult))
    (serviceNames : List String) : Except String (List Event) :=
  let toCollect := candidateServices services serviceNames
  if toCollect.isEmpty then Except.error "no services available to collect"
  else Except.ok (sortEventsByTimestamp (mergedEvents toCollect))

/-- The service names whose fetch function `CollectEvents` invokes: the loop
at sqlite.go lines 983-1006 starts exactly one fetch per entry of
`servicesToCollect` (when the candidate set is empty the function returns
before the loop). -/
def collectEventsCalls (services : List (String × FetchResult))
    (serviceNames : List String) : List String :=
  let toCollect := candidateServices services serviceNames
  if toCollect.isEmpty then [] else toCollect.map Prod.fst

/-! ## The persistence layer (sqlite.go lines 254-530).  The `events` table
is keyed by its `id TEXT PRIMARY KEY` column and the `event_attachments`
table by its `id TEXT PRIMARY KEY` column (`attachmentRowID`); an
`INSERT OR REPLACE` is an upsert on that key. -/

/-- The columns of the `events` table written by `InsertEvents` other than
the key (`created_at` has a default and is never part of the insert). -/
structure EventRow where
  service : String
  eventType : String
  title : String
  content : String
  timestamp : Int
  metadata : String
  userId : String
deriving DecidableEq, Repr

/-- The columns of the `event_attachments` table written by
`insertAttachmentsTx` other than the key. -/
structure AttachmentRow where
  eventId : String
  fileId : String
  title : String
  mimeType : String
  exportAs : String
  textFull : String
  truncated : Int
deriving DecidableEq, Repr

/-- The stored state of the two tables. -/
structure DBState where
  events : List (String × EventRow)
  attachments : List (String × AttachmentRow)
deriving DecidableEq, Repr

/-- The row the event insert statement of `InsertEvents` (sqlite.go lines
392-411) writes for an event. -/
def eventRowOf (e : Event) : EventRow :=
  { service := e.Service
    eventType := e.EventType
    title := e.Title
    content := e.Content
    timestamp := e.Timestamp
    metadata := e.Metadata
    userId := e.UserID }

/-- Embeds `attachmentRowID` (sqlite.go lines 337-342). -/
def attachmentRowID (eventID fileID : String) : String :=
  (eventID ++ "__" ++ fileID).replace " " "_"

/-- The row `insertAttachmentsTx` (sqlite.go lines 443-463) writes for one
attachment. -/
def attachmentRowOf (eventID : String) (a : EventAttachment) : AttachmentRow :=
  { eventId := eventID
    fileId := a.FileID
    title := a.Title
    mimeType := a.MimeType
    exportAs := a.ExportAs
    textFull := a.TextFull
    truncated := if a.Truncated then 1 else 0 }

/-- Effect of an executed `INSERT OR REPLACE INTO events` statement. -/
def execInsertEventRow (s : DBState) (e : Event) : DBState :=
  { s with events := assocSet s.events e.ID (eventRowOf e) }

/-- Effect of an executed `INSERT OR REPLACE INTO event_attachments`
statement. -/
def execInsertAttachmentRow (s : DBState) (eventID : String)
    (a : EventAttachment) : DBState :=
  let key := attachmentRowID eventID a.FileID
  { s with attachments := assocSet s.attachments key (attachmentRowOf eventID a) }

/-- The attachment loop of `insertAttachmentsTx` (sqlite.go lines 443-463)
inside the open transaction.  `oracle` models the SQL driver: `oracle n`
says whether the n-th `Exec` call of this `InsertEvents` run fails.
Attachments with an empty `FileID` are skipped. -/
def runAttachmentInserts (oracle : Nat → Bool) (eventID : String) :
    List EventAttachment → DBState → Nat → Except String (DBState × Nat)
  | [], tx, calls => .ok (tx, calls)
  | a :: rest, tx, calls =>
      if a.FileID = "" then runAttachmentInserts oracle eventID rest tx calls
      else if oracle calls then
        .error ("failed to insert attachment for event " ++ eventID)
      else
        runAttachmentInserts oracle eventID rest
          (execInsertAttachmentRow tx eventID a) (calls + 1)

/-- The event loop of `InsertEvents` (sqlite.go lines 401-419) inside the
open transaction: insert the event row, then its attachment rows; any
failure aborts the whole loop. -/
def runEventInserts (oracle : Nat → Bool) :
    List Event → DBState → Nat → Except String (DBState × Nat)
  | [], tx, calls => .ok (tx, calls)
  | e :: rest, tx, calls =>
      if oracle calls then .error ("failed to insert event " ++ e.ID)
      else
        match runAttachmentInserts oracle e.ID e.Attachments
            (execInsertEventRow tx e) (calls + 1) with
        | .error msg => .error msg
        | .ok (tx₂, calls₂) => runEventInserts oracle rest tx₂ calls₂

/-- Embeds `DatabaseManager.InsertEvents` (sqlite.go lines 385-426): run the whole
batch inside one transaction; on any failure the deferred `tx.Rollback()`
leaves the stored state unchanged, on success `tx.Commit()` publishes the
transaction state.  (A failing `Begin`, `Prepare` or `Commit` also returns
before any commit, leaving the state unchanged.) -/
def InsertEvents (oracle : Nat → Bool) (s : DBState) (events : List Event) :
    Option String × DBState :=
  match runEventInserts oracle events s 0 with
  | .error msg => (some msg, s)
  | .ok (tx, _) => (none, tx)

/-- The pure effect of one event of a successful batch: upsert the event row
and then each of its attachment rows. -/
def applyEvent (s : DBState) (e : Event) : DBState :=
  e.Attachments.foldl
    (fun acc a =>
      if a.FileID = "" then acc else execInsertAttachmentRow acc e.ID a)
    (execInsertEventRow s e)

/-- The pure effect of a successful `InsertEvents` batch. -/
def applyEvents (s : DBState) (events : List Event) : DBState :=
  events.foldl applyEvent s

/-- A successful `InsertEvents` run (every driver call succeeds). -/
def insertEventsOk (s : DBState) (events : List Event) : DBState :=
  (InsertEvents (fun _ => false) s events).2

/-- The row written for the last occurrence of an id in a batch. -/
def lastEventRow (events : List Event) (id : String) : Option EventRow :=
  events.foldl
    (fun acc e => if e.ID = id then some (eventRowOf e) else acc)
    none

/-- Truncation of a UTC instant to whole seconds, as performed both by
`Format("2006-01-02 15:04:05")` on the query bounds and by the SQLite
`datetime()` function on the stored `timestamp` column (both drop the
fractional second of the wall-clock reading). -/
def floorSec (ns : Int) : Int := Int.fdiv ns secondNs

/-- The WHERE clause of `GetEvents` (sqlite.go lines 474-491):
`datetime(timestamp) >= datetime(start) AND datetime(timestamp) <=
datetime(end)`, where both bounds were formatted without their fractional
second, plus the optional `service IN (...)` allow-list. -/
def getEventsWhere (startTime endTime : Int) (services : List String)
    (r : String × EventRow) : Bool :=
  decide (floorSec startTime ≤ floorSec r.2.timestamp) &&
  decide (floorSec r.2.timestamp ≤ floorSec endTime) &&
  (services.isEmpty || services.contains r.2.service)

/-- Models `ORDER BY timestamp ASC`: insert a row after all rows with a smaller or
equal stored timestamp. -/
def insertRowByTs (r : String × EventRow) :
    List (String × EventRow) → List (String × EventRow)
  | [] => [r]
  | x :: xs =>
      if r.2.timestamp < x.2.timestamp then r :: x :: xs
      else x :: insertRowByTs r xs

/-- Sort rows ascending by stored timestamp. -/
def sortRowsByTs : List (String × EventRow) → List (String × EventRow)
  | [] => []
  | x :: xs => insertRowByTs x (sortRowsByTs xs)

/-- Embeds `DatabaseManager.GetEvents` (sqlite.go lines 469-530): the rows of the
`events` table matching the WHERE clause, ordered ascending by timestamp.
`startTime` and `endTime` are the UTC instants of the Go arguments (the
`.UTC()` conversion does not change the instant).  Attachment hydration
(lines 524-527) populates the returned structs and is not part of the row
selection this claim is about. -/
def getEvents (s : DBState) (startTime endTime : Int)
    (services : List String) : List (String × EventRow) :=
  sortRowsByTs (s.events.filter (getEventsWhere startTime endTime services))

/-! ## The token store (token_store.go). Only the fields a stored entry
actually receives are modelled; `AccessToken`, `RefreshToken`, `ExpiresAt`
and `Scopes` live inside the encrypted payload and stay zero on the stored
record (lines 77-82). -/

/-- Embeds `auth.StoredToken` as persisted by `saveTokens`. -/
structure StoredToken where
  ServiceName : String
  TokenType : String
  CreatedAt : Int
  LastRefresh : Option Int
  EncryptedData : String
deriving DecidableEq, Repr

/-- The update-or-append loop of `StoreToken` (token_store.go lines 90-101):
replace the first entry with the same service name, otherwise append. -/
def storeTokenLoop (newToken : StoredToken) :
    List StoredToken → List StoredToken
  | [] => [newToken]
  | t :: rest =>
      if t.ServiceName = newToken.ServiceName then newToken :: rest
      else t :: storeTokenLoop newToken rest

/-- Embeds `TokenStore.StoreToken` (token_store.go lines 55-105) acting on the
decoded token file: build the fresh record and update or append it. -/
def storeToken (tokens : List StoredToken) (serviceName : String) (now : Int)
    (encryptedData : String) : List StoredToken :=
  storeTokenLoop
    { ServiceName := serviceName
      TokenType := "access"
      CreatedAt := now
      LastRefresh := none
      EncryptedData := encryptedData }
    tokens

/-- Embeds `TokenStore.DeleteToken` (token_store.go lines 163-178): keep every
entry whose service name differs. -/
def deleteToken (tokens : List StoredToken) (serviceName : String) :
    List StoredToken :=
  tokens.filter (fun t => t.ServiceName ≠ serviceName)

/-- Embeds `TokenStore.UpdateRefreshTime` (token_store.go lines 196-212): set
`LastRefresh` on the first entry with the service name, then stop. -/
def updateRefreshTime (tokens : List StoredToken) (serviceName : String)
    (now : Int) : List StoredToken :=
  match tokens with
  | [] => []
  | t :: rest =>
      if t.ServiceName = serviceName then { t with LastRefresh := some now } :: rest
      else t :: updateRefreshTime rest serviceName now

/-- One mutation of the token file. -/
inductive TokenOp where
  | store (serviceName : String) (now : Int) (encryptedData : String)
  | updateRefresh (serviceName : String) (now : Int)
  | delete (serviceName : String)
deriving DecidableEq, Repr

/-- Apply one mutation. -/
def applyTokenOp (tokens : List StoredToken) : TokenOp → List StoredToken
  | .store serviceName now encryptedData =>
      storeToken tokens serviceName now encryptedData
  | .updateRefresh serviceName now => updateRefreshTime tokens serviceName now
  | .delete serviceName => deleteToken tokens serviceName

/-- Apply a sequence of mutations. -/
def applyTokenOps (tokens : List StoredToken) (ops : List TokenOp) :
    List StoredToken :=
  ops.foldl applyTokenOp tokens

/-- The token-file invariant: at most one stored token per service name. -/
def OneTokenPerService (tokens : List StoredToken) : Prop :=
  (tokens.map StoredToken.ServiceName).Nodup

/-! ## Shared abbreviations and concrete sample data used by the witness
theorems. -/

/-- Ascending-timestamp order on events. -/
def tsLe (a b : Event) : Prop := a.Timestamp ≤ b.Timestamp

/-- Ascending-timestamp order on stored event rows. -/
def rowTsLe (a b : String × EventRow) : Prop := a.2.timestamp ≤ b.2.timestamp

/-- The cumulative effect of the event-insert statement of a batch on the
`events` table alone. -/
def upsertRows (tbl : List (String × EventRow)) (events : List Event) :
    List (String × EventRow) :=
  events.foldl (fun t e => assocSet t e.ID (eventRowOf e)) tbl

/-- A concrete event with the given id and timestamp. -/
def sampleEvent (id : String) (ts : Int) : Event :=
  { ID := id
    Service := "svc"
    EventType := "commit"
    Title := "t"
    Content := "c"
    Timestamp := ts
    Metadata := ""
    UserID := "u"
    Attachments := [] }

/-- A concrete two-service map. -/
def sampleServices : List (String × FetchResult) :=
  [("slack", FetchResult.ok [sampleEvent "s1" 2]),
   ("github", FetchResult.ok [sampleEvent "g1" 1])]

/-! # Theorems -/

/-- C6: `ValidateTimeRange` returns an error if and only if the start is
after the end, the end is after the current time, or the span exceeds 365
days; for any window violating none of the three checks it returns nil. -/
theorem validateTimeRange_error_iff (now startTime endTime : Int) :
    (ValidateTimeRange now startTime endTime).isSome ↔
      (endTime < startTime ∨ now < endTime ∨ yearNs < endTime - startTime) := by
  unfold ValidateTimeRange tsAfter
  split_ifs with h1 h2 h3 <;> simp_all

/-- C8: for every possible `Retry-After` value (integer seconds, HTTP date,
unparseable, or absent), the delay computed before the next attempt after a
rate-limited response lies in the closed interval of 1 to 300 seconds. -/
theorem getRetryAfterDelay_bounds (v : RetryAfterValue) :
    secondNs ≤ getRetryAfterDelay v ∧ getRetryAfterDelay v ≤ 300 * secondNs := by
  cases v <;> simp only [getRetryAfterDelay, secondNs, minuteNs] <;> omega

/-! ## Association-list (upsert) lemmas -/

theorem assocFind_assocSet {α : Type} (m : List (String × α)) (k j : String)
    (v : α) :
    assocFind (assocSet m k v) j = if j = k then some v else assocFind m j := by
  induction m with
  | nil =>
      by_cases hj : j = k
      · simp [assocSet, assocFind, hj]
      · have hj₂ : ¬ k = j := fun hcon => hj hcon.symm
        simp [assocSet, assocFind, hj, hj₂]
  | cons p rest ih =>
      obtain ⟨k₁, w⟩ := p
      by_cases hk : k₁ = k
      · subst hk
        by_cases hj : j = k₁
        · simp [assocSet, assocFind, hj]
        · have hj₂ : ¬ k₁ = j := fun hcon => hj hcon.symm
          simp [assocSet, assocFind, hj, hj₂]
      · by_cases hj : j = k₁
        · have hjk : ¬ j = k := by rw [hj]; exact hk
          simp [assocSet, assocFind, hk, hj.symm, hjk]
        · have hj₂ : ¬ k₁ = j := fun hcon => hj hcon.symm
          simp [assocSet, assocFind, hk, hj₂, ih]

theorem mem_keys_assocSet {α : Type} (m : List (String × α)) (k j : String)
    (v : α) :
    j ∈ (assocSet m k v).map Prod.fst ↔ j ∈ m.map Prod.fst ∨ j = k := by
  induction m with
  | nil => simp [assocSet]
  | cons p rest ih =>
      obtain ⟨k₁, w⟩ := p
      by_cases hk : k₁ = k
      · subst hk
        simp [assocSet]
        tauto
      · simp only [assocSet, if_neg hk, List.map_cons, List.mem_cons, ih]
        tauto

theorem length_assocSet_of_mem {α : Type} (m : List (String × α)) (k : String)
    (v : α) (h : k ∈ m.map Prod.fst) :
    (assocSet m k v).length = m.length := by
  induction m with
  | nil => simp at h
  | cons p rest ih =>
      obtain ⟨k₁, w⟩ := p
      by_cases hk : k₁ = k
      · simp [assocSet, if_pos hk]
      · simp only [List.map_cons, List.mem_cons] at h
        rcases h with h | h
        · exact absurd h.symm hk
        · simp [assocSet, if_neg hk, ih h]

theorem nodup_keys_assocSet {α : Type} (m : List (String × α)) (k : String)
    (v : α) (h : (m.map Prod.fst).Nodup) :
    ((assocSet m k v).map Prod.fst).Nodup := by
  induction m with
  | nil => simp [assocSet]
  | cons p rest ih =>
      obtain ⟨k₁, w⟩ := p
      simp only [List.map_cons, List.nodup_cons] at h
      by_cases hk : k₁ = k
      · subst hk
        simpa [assocSet, List.nodup_cons] using h
      · simp only [assocSet, if_neg hk, List.map_cons, List.nodup_cons]
        refine ⟨?_, ih h.2⟩
        rw [mem_keys_assocSet]
        rintro (hm | hm)
        · exact h.1 hm
        · exact hk hm

/-! ## Transaction-run lemmas for `InsertEvents` -/

theorem runAttachmentInserts_ok_eq (oracle : Nat → Bool) (eventID : String) :
    ∀ (atts : List EventAttachment) (tx : DBState) (calls : Nat)
      (tx₂ : DBState) (calls₂ : Nat),
      runAttachmentInserts oracle eventID atts tx calls = .ok (tx₂, calls₂) →
      tx₂ = atts.foldl
        (fun acc a =>
          if a.FileID = "" then acc else execInsertAttachmentRow acc eventID a)
        tx := by
  intro atts
  induction atts with
  | nil =>
      intro tx calls tx₂ calls₂ h
      simp only [runAttachmentInserts] at h
      cases h
      rfl
  | cons a rest ih =>
      intro tx calls tx₂ calls₂ h
      simp only [runAttachmentInserts] at h
      by_cases hf : a.FileID = ""
      · rw [if_pos hf] at h
        simpa [hf] using ih tx calls tx₂ calls₂ h
      · rw [if_neg hf] at h
        by_cases ho : oracle calls
        · simp [ho] at h
        · rw [if_neg ho] at h
          simpa [hf] using
            ih (execInsertAttachmentRow tx eventID a) (calls + 1) tx₂ calls₂ h

theorem runEventInserts_ok_eq (oracle : Nat → Bool) :
    ∀ (es : List Event) (tx : DBState) (calls : Nat) (tx₂ : DBState)
      (calls₂ : Nat),
      runEventInserts oracle es tx calls = .ok (tx₂, calls₂) →
      tx₂ = applyEvents tx es := by
  intro es
  induction es with
  | nil =>
      intro tx calls tx₂ calls₂ h
      simp only [runEventInserts] at h
      cases h
      rfl
  | cons e rest ih =>
      intro tx calls tx₂ calls₂ h
      simp only [runEventInserts] at h
      by_cases ho : oracle calls
      · simp [ho] at h
      · rw [if_neg ho] at h
        cases ha : runAttachmentInserts oracle e.ID e.Attachments
            (execInsertEventRow tx e) (calls + 1) with
        | error msg => rw [ha] at h; cases h
        | ok p =>
            obtain ⟨tx₁, calls₁⟩ := p
            rw [ha] at h
            have h₁ := runAttachmentInserts_ok_eq oracle e.ID e.Attachments
              (execInsertEventRow tx e) (calls + 1) tx₁ calls₁ ha
            have h₂ := ih tx₁ calls₁ tx₂ calls₂ h
            rw [h₂, h₁]
            rfl

theorem runAttachmentInserts_noFail (eventID : String) :
    ∀ (atts : List EventAttachment) (tx : DBState) (calls : Nat),
      ∃ calls₂,
        runAttachmentInserts (fun _ => false) eventID atts tx calls =
          .ok
            (atts.foldl
              (fun acc a =>
                if a.FileID = "" then acc
                else execInsertAttachmentRow acc eventID a)
              tx,
            calls₂) := by
  intro atts
  induction atts with
  | nil => intro tx calls; exact ⟨calls, rfl⟩
  | cons a rest ih =>
      intro tx calls
      by_cases hf : a.FileID = ""
      · obtain ⟨c₂, hc⟩ := ih tx calls
        exact ⟨c₂, by simp [runAttachmentInserts, hf, hc]⟩
      · obtain ⟨c₂, hc⟩ := ih (execInsertAttachmentRow tx eventID a) (calls + 1)
        exact ⟨c₂, by simp [runAttachmentInserts, hf, hc]⟩

theorem runEventInserts_noFail :
    ∀ (es : List Event) (tx : DBState) (calls : Nat),
      ∃ calls₂,
        runEventInserts (fun _ => false) es tx calls =
          .ok (applyEvents tx es, calls₂) := by
  intro es
  induction es with
  | nil => intro tx calls; exact ⟨calls, rfl⟩
  | cons e rest ih =>
      intro tx calls
      obtain ⟨c₁, hc₁⟩ :=
        runAttachmentInserts_noFail e.ID e.Attachments
          (execInsertEventRow tx e) (calls + 1)
      obtain ⟨c₂, hc₂⟩ := ih (applyEvent tx e) c₁
      refine ⟨c₂, ?_⟩
      simp only [runEventInserts, if_neg (by simp : ¬ (false = true)), hc₁]
      rw [show (applyEvent tx e : DBState) =
          e.Attachments.foldl
            (fun acc a =>
              if a.FileID = "" then acc else execInsertAttachmentRow acc e.ID a)
            (execInsertEventRow tx e) from rfl] at hc₂
      rw [hc₂]
      rfl

/-- C4: `InsertEvents` wraps the whole batch, events and attachment rows, in
one transaction: if any single driver call fails the function returns an
error and the committed state is unchanged; if every call succeeds the
committed state is exactly the batch applied in order. -/
theorem insertEvents_transactional (oracle : Nat → Bool) (s : DBState)
    (events : List Event) :
    ((InsertEvents oracle s events).1.isSome →
      (InsertEvents oracle s events).2 = s) ∧
    ((InsertEvents oracle s events).1 = none →
      (InsertEvents oracle s events).2 = applyEvents s events) := by
  unfold InsertEvents
  cases h : runEventInserts oracle events s 0 with
  | error msg => simp
  | ok p =>
      obtain ⟨tx, c⟩ := p
      simp only [Option.isSome_none, Bool.false_eq_true, false_implies,
        true_and]
      intro _
      exact runEventInserts_ok_eq oracle events s 0 tx c h

/-- Witness for C4 at a concrete failing run. -/
theorem insertEvents_transactional_witness :
    (InsertEvents (fun _ => true) ⟨[], []⟩ [sampleEvent "a" 1]).1.isSome ∧
    (InsertEvents (fun _ => true) ⟨[], []⟩ [sampleEvent "a" 1]).2 = ⟨[], []⟩ :=
  ⟨by decide,
    (insertEvents_transactional (fun _ => true) ⟨[], []⟩
        [sampleEvent "a" 1]).1 (by decide)⟩

/-! ## Idempotence of `InsertEvents` on the events table -/

theorem attachFold_events (eventID : String) :
    ∀ (atts : List EventAttachment) (acc : DBState),
      (atts.foldl
        (fun acc a =>
          if a.FileID = "" then acc else execInsertAttachmentRow acc eventID a)
        acc).events = acc.events := by
  intro atts
  induction atts with
  | nil => intro acc; rfl
  | cons a rest ih =>
      intro acc
      rw [List.foldl_cons, ih]
      by_cases hf : a.FileID = ""
      · rw [if_pos hf]
      · rw [if_neg hf]
        rfl

theorem applyEvent_events (s : DBState) (e : Event) :
    (applyEvent s e).events = assocSet s.events e.ID (eventRowOf e) := by
  unfold applyEvent
  rw [attachFold_events]
  rfl

theorem applyEvents_events :
    ∀ (es : List Event) (s : DBState),
      (applyEvents s es).events = upsertRows s.events es := by
  intro es
  induction es with
  | nil => intro s; rfl
  | cons e rest ih =>
      intro s
      show (applyEvents (applyEvent s e) rest).events = _
      rw [ih]
      unfold upsertRows
      simp [applyEvent_events]

theorem insertEventsOk_events (s : DBState) (es : List Event) :
    (insertEventsOk s es).events = upsertRows s.events es := by
  unfold insertEventsOk InsertEvents
  obtain ⟨c₂, hc⟩ := runEventInserts_noFail es s 0
  rw [hc]
  exact applyEvents_events es s

theorem keys_upsertRows_mono :
    ∀ (es : List Event) (tbl : List (String × EventRow)) (j : String),
      j ∈ tbl.map Prod.fst → j ∈ (upsertRows tbl es).map Prod.fst := by
  intro es
  induction es with
  | nil => intro tbl j h; exact h
  | cons e rest ih =>
      intro tbl j h
      show j ∈ (upsertRows (assocSet tbl e.ID (eventRowOf e)) rest).map Prod.fst
      exact ih _ j ((mem_keys_assocSet tbl e.ID j (eventRowOf e)).2 (Or.inl h))

theorem ids_mem_upsertRows :
    ∀ (es : List Event) (tbl : List (String × EventRow)) (e : Event),
      e ∈ es → e.ID ∈ (upsertRows tbl es).map Prod.fst := by
  intro es
  induction es with
  | nil => intro tbl e h; cases h
  | cons e₁ rest ih =>
      intro tbl e h
      rcases List.mem_cons.1 h with h | h
      · subst h
        show e.ID ∈ (upsertRows (assocSet tbl e.ID (eventRowOf e)) rest).map Prod.fst
        exact keys_upsertRows_mono rest _ e.ID
          ((mem_keys_assocSet tbl e.ID e.ID (eventRowOf e)).2 (Or.inr rfl))
      · exact ih _ e h

theorem length_upsertRows_of_mem :
    ∀ (es : List Event) (tbl : List (String × EventRow)),
      (∀ e ∈ es, e.ID ∈ tbl.map Prod.fst) →
      (upsertRows tbl es).length = tbl.length := by
  intro es
  induction es with
  | nil => intro tbl _; rfl
  | cons e rest ih =>
      intro tbl h
      show (upsertRows (assocSet tbl e.ID (eventRowOf e)) rest).length = _
      rw [ih _ ?_, length_assocSet_of_mem _ _ _ (h e (List.mem_cons_self e rest))]
      intro e₁ h₁
      exact (mem_keys_assocSet tbl e.ID e₁.ID (eventRowOf e)).2
        (Or.inl (h e₁ (List.mem_cons_of_mem e h₁)))

theorem nodup_keys_upsertRows :
    ∀ (es : List Event) (tbl : List (String × EventRow)),
      (tbl.map Prod.fst).Nodup → ((upsertRows tbl es).map Prod.fst).Nodup := by
  intro es
  induction es with
  | nil => intro tbl h; exact h
  | cons e rest ih =>
      intro tbl h
      exact ih _ (nodup_keys_assocSet tbl e.ID (eventRowOf e) h)

theorem lastEventRow_acc (id : String) :
    ∀ (es : List Event) (acc : Option EventRow),
      es.foldl (fun acc e => if e.ID = id then some (eventRowOf e) else acc)
          acc =
        match es.foldl
            (fun acc e => if e.ID = id then some (eventRowOf e) else acc)
            none with
        | some r => some r
        | none => acc := by
  intro es
  induction es with
  | nil => intro acc; rfl
  | cons e rest ih =>
      intro acc
      show rest.foldl _ (if e.ID = id then some (eventRowOf e) else acc) = _
      rw [ih]
      conv_rhs =>
        rw [show (e :: rest).foldl
            (fun acc e => if e.ID = id then some (eventRowOf e) else acc)
            none =
          rest.foldl (fun acc e => if e.ID = id then some (eventRowOf e) else acc)
            (if e.ID = id then some (eventRowOf e) else none) from rfl]
      rw [ih (if e.ID = id then some (eventRowOf e) else none)]
      cases rest.foldl (fun acc e => if e.ID = id then some (eventRowOf e) else acc)
          none with
      | none => by_cases hf : e.ID = id <;> simp [hf]
      | some r => simp

theorem assocFind_upsertRows (id : String) :
    ∀ (es : List Event) (tbl : List (String × EventRow)),
      assocFind (upsertRows tbl es) id =
        match lastEventRow es id with
        | some r => some r
        | none => assocFind tbl id := by
  intro es
  induction es with
  | nil => intro tbl; rfl
  | cons e rest ih =>
      intro tbl
      show assocFind (upsertRows (assocSet tbl e.ID (eventRowOf e)) rest) id = _
      rw [ih]
      have hlast : lastEventRow (e :: rest) id =
          match lastEventRow rest id with
          | some r => some r
          | none => if e.ID = id then some (eventRowOf e) else none := by
        show rest.foldl _ (if e.ID = id then some (eventRowOf e) else none) = _
        rw [lastEventRow_acc]
        rfl
      rw [hlast]
      cases lastEventRow rest id with
      | some r => rfl
      | none =>
          rw [assocFind_assocSet]
          by_cases hf : e.ID = id
          · simp [hf]
          · have hf₂ : ¬ id = e.ID := fun hcon => hf hcon.symm
            simp [hf, hf₂]

/-- C3: running `InsertEvents` twice with the same (successfully committed)
event list leaves the events-table row count unchanged after the second run;
for every id the stored row is the one of the last batch event with that id
(last-write-wins over any existing row), and the table keeps at most one row
per id. -/
theorem insertEvents_idempotent (s : DBState) (es : List Event)
    (h : (s.events.map Prod.fst).Nodup) :
    (insertEventsOk (insertEventsOk s es) es).events.length =
        (insertEventsOk s es).events.length ∧
    (∀ id, assocFind (insertEventsOk s es).events id =
        match lastEventRow es id with
        | some r => some r
        | none => assocFind s.events id) ∧
    ((insertEventsOk s es).events.map Prod.fst).Nodup := by
  refine ⟨?_, ?_, ?_⟩
  · rw [insertEventsOk_events, insertEventsOk_events]
    exact length_upsertRows_of_mem es _
      (fun e he => ids_mem_upsertRows es s.events e he)
  · intro id
    rw [insertEventsOk_events]
    exact assocFind_upsertRows id es s.events
  · rw [insertEventsOk_events]
    exact nodup_keys_upsertRows es s.events h

/-- Witness for C3 at a concrete batch containing a duplicated id. -/
theorem insertEvents_idempotent_witness :
    (insertEventsOk
        (insertEventsOk ⟨[], []⟩ [sampleEvent "a" 1, sampleEvent "a" 2])
        [sampleEvent "a" 1, sampleEvent "a" 2]).events.length =
      (insertEventsOk ⟨[], []⟩
        [sampleEvent "a" 1, sampleEvent "a" 2]).events.length :=
  (insertEvents_idempotent ⟨[], []⟩ [sampleEvent "a" 1, sampleEvent "a" 2]
    (by decide)).1

/-! ## Token-store invariant lemmas -/

theorem storeTokenLoop_names (newToken : StoredToken) :
    ∀ (tokens : List StoredToken),
      (storeTokenLoop newToken tokens).map StoredToken.ServiceName =
        if newToken.ServiceName ∈ tokens.map StoredToken.ServiceName then
          tokens.map StoredToken.ServiceName
        else tokens.map StoredToken.ServiceName ++ [newToken.ServiceName] := by
  intro tokens
  induction tokens with
  | nil => simp [storeTokenLoop]
  | cons t rest ih =>
      by_cases ht : t.ServiceName = newToken.ServiceName
      · simp [storeTokenLoop, ht]
      · have ht₂ : ¬ newToken.ServiceName = t.ServiceName :=
          fun hcon => ht hcon.symm
        by_cases hm : newToken.ServiceName ∈ rest.map StoredToken.ServiceName <;>
          simp [storeTokenLoop, ht, ht₂, ih, hm]

theorem updateRefreshTime_names (serviceName : String) (now : Int) :
    ∀ (tokens : List StoredToken),
      (updateRefreshTime tokens serviceName now).map StoredToken.ServiceName =
        tokens.map StoredToken.ServiceName := by
  intro tokens
  induction tokens with
  | nil => rfl
  | cons t rest ih =>
      by_cases ht : t.ServiceName = serviceName <;>
        simp [updateRefreshTime, ht, ih]

theorem storeToken_invariant (tokens : List StoredToken) (serviceName : String)
    (now : Int) (encryptedData : String) (h : OneTokenPerService tokens) :
    OneTokenPerService (storeToken tokens serviceName now encryptedData) := by
  unfold OneTokenPerService storeToken at *
  rw [storeTokenLoop_names]
  split_ifs with hm
  · exact h
  · simp only [List.nodup_append, List.nodup_cons, List.nodup_nil]
    refine ⟨h, by simp, ?_⟩
    intro a ha hb
    simp only [List.mem_singleton] at hb
    subst hb
    exact hm ha

theorem updateRefreshTime_invariant (tokens : List StoredToken)
    (serviceName : String) (now : Int) (h : OneTokenPerService tokens) :
    OneTokenPerService (updateRefreshTime tokens serviceName now) := by
  unfold OneTokenPerService at *
  rw [updateRefreshTime_names]
  exact h

theorem deleteToken_invariant (tokens : List StoredToken)
    (serviceName : String) (h : OneTokenPerService tokens) :
    OneTokenPerService (deleteToken tokens serviceName) := by
  unfold OneTokenPerService at *
  exact h.sublist (List.Sublist.map StoredToken.ServiceName
    (List.filter_sublist tokens))

/-- C9: starting from any token file holding at most one token per service
name, every sequence of `StoreToken`, `UpdateRefreshTime` and `DeleteToken`
operations maintains that invariant: `StoreToken` replaces an existing entry
in place and appends only a fresh name, the other two never introduce a
name. -/
theorem tokenStore_one_per_service (tokens : List StoredToken)
    (h : OneTokenPerService tokens) (ops : List TokenOp) :
    OneTokenPerService (applyTokenOps tokens ops) := by
  induction ops generalizing tokens with
  | nil => exact h
  | cons op rest ih =>
      show OneTokenPerService (applyTokenOps (applyTokenOp tokens op) rest)
      refine ih _ ?_
      cases op with
      | store serviceName now encryptedData =>
          exact storeToken_invariant tokens serviceName now encryptedData h
      | updateRefresh serviceName now =>
          exact updateRefreshTime_invariant tokens serviceName now h
      | delete serviceName => exact deleteToken_invariant tokens serviceName h

/-- Witness for C9 on a concrete operation sequence. -/
theorem tokenStore_one_per_service_witness :
    OneTokenPerService (applyTokenOps []
      [TokenOp.store "slack" 1 "x", TokenOp.store "slack" 2 "y",
       TokenOp.updateRefresh "slack" 3, TokenOp.store "github" 4 "z",
       TokenOp.delete "slack"]) :=
  tokenStore_one_per_service [] (by simp [OneTokenPerService])
    [TokenOp.store "slack" 1 "x", TokenOp.store "slack" 2 "y",
     TokenOp.updateRefresh "slack" 3, TokenOp.store "github" 4 "z",
     TokenOp.delete "slack"]

/-! ## Candidate-set lemmas for the collector -/

theorem candidateFold_nodup (services : List (String × FetchResult)) :
    ∀ (names : List String) (acc : List (String × FetchResult)),
      (acc.map Prod.fst).Nodup →
      (((names.foldl
          (fun acc name =>
            match assocFind services name with
            | some client => assocSet acc name client
            | none => acc)
          acc)).map Prod.fst).Nodup := by
  intro names
  induction names with
  | nil => intro acc h; exact h
  | cons name tl ih =>
      intro acc h
      rw [List.foldl_cons]
      cases hf : assocFind services name with
      | none => simpa [hf] using ih acc h
      | some client =>
          simpa [hf] using ih _ (nodup_keys_assocSet acc name client h)

theorem candidateFold_mem (services : List (String × FetchResult)) :
    ∀ (names : List String) (acc : List (String × FetchResult)) (j : String),
      (j ∈ ((names.foldl
          (fun acc name =>
            match assocFind services name with
            | some client => assocSet acc name client
            | none => acc)
          acc)).map Prod.fst) ↔
        j ∈ acc.map Prod.fst ∨ (j ∈ names ∧ (assocFind services j).isSome) := by
  intro names
  induction names with
  | nil => intro acc j; simp
  | cons name tl ih =>
      intro acc j
      rw [List.foldl_cons]
      cases hf : assocFind services name with
      | none =>
          rw [show (match (none : Option FetchResult) with
              | some client => assocSet acc name client
              | none => acc) = acc from rfl]
          rw [ih acc j]
          constructor
          · rintro (h | h)
            · exact Or.inl h
            · exact Or.inr ⟨List.mem_cons_of_mem name h.1, h.2⟩
          · rintro (h | ⟨hmem, hsome⟩)
            · exact Or.inl h
            · rcases List.mem_cons.1 hmem with hj | hj
              · subst hj
                rw [hf] at hsome
                cases hsome
              · exact Or.inr ⟨hj, hsome⟩
      | some client =>
          rw [show (match (some client : Option FetchResult) with
              | some client => assocSet acc name client
              | none => acc) = assocSet acc name client from rfl]
          rw [ih _ j, mem_keys_assocSet]
          constructor
          · rintro ((h | h) | h)
            · exact Or.inl h
            · subst h
              exact Or.inr ⟨List.mem_cons_self _ _, by rw [hf]; rfl⟩
            · exact Or.inr ⟨List.mem_cons_of_mem name h.1, h.2⟩
          · rintro (h | ⟨hmem, hsome⟩)
            · exact Or.inl (Or.inl h)
            · rcases List.mem_cons.1 hmem with hj | hj
              · exact Or.inl (Or.inr hj)
              · exact Or.inr ⟨hj, hsome⟩

theorem collectEventsCalls_eq_keys (services : List (String × FetchResult))
    (serviceNames : List String) :
    collectEventsCalls services serviceNames =
      (candidateServices services serviceNames).map Prod.fst := by
  unfold collectEventsCalls
  cases h : candidateServices services serviceNames with
  | nil => simp [h]
  | cons p tl => simp [h]

theorem mergedEvents_all_fail :
    ∀ (m : List (String × FetchResult)),
      (∀ p ∈ m, p.2 = FetchResult.fail) → mergedEvents m = [] := by
  have hgen :
      ∀ (m : List (String × FetchResult)) (acc : List Event),
        (∀ p ∈ m, p.2 = FetchResult.fail) →
        (m.foldl
          (fun acc p =>
            match p.2 with
            | .ok evs => acc ++ evs
            | .fail => acc)
          acc) = acc := by
    intro m
    induction m with
    | nil => intro acc _; rfl
    | cons p tl ih =>
        intro acc h
        rw [List.foldl_cons]
        have hp := h p (List.mem_cons_self p tl)
        rw [hp]
        exact ih acc (fun q hq => h q (List.mem_cons_of_mem p hq))
  intro m h
  exact hgen m [] h

/-- C1 counterexample: with a single initialized service whose fetch fails
(and an empty filter, so the candidate set is that one failing service),
`CollectEvents` returns an empty list together with a NIL error, not the
non-nil aggregate error the claim requires. -/
theorem collectEvents_all_fail_counterexample :
    collectEvents [("failed", FetchResult.fail)] [] = Except.ok [] ∧
    ∀ msg, collectEvents [("failed", FetchResult.fail)] [] ≠
      Except.error msg := by
  refine ⟨rfl, ?_⟩
  intro msg hcon
  rw [show collectEvents [("failed", FetchResult.fail)] [] = Except.ok []
    from rfl] at hcon
  exact Except.noConfusion hcon

/-- C1 (amended): `CollectEvents` returns an error exactly when the
candidate set is empty — the filter names no initialized service, or no
service is initialized.  When at least one candidate exists it returns a
nil error no matter how many fetches fail; in particular, if every candidate
fetch fails it returns an empty event list and a nil error. -/
theorem collectEvents_error_iff (services : List (String × FetchResult))
    (serviceNames : List String) :
    ((∃ msg, collectEvents services serviceNames = Except.error msg) ↔
      candidateServices services serviceNames = []) ∧
    (candidateServices services serviceNames ≠ [] →
      (∀ p ∈ candidateServices services serviceNames,
        p.2 = FetchResult.fail) →
      collectEvents services serviceNames = Except.ok []) := by
  constructor
  · unfold collectEvents
    cases h : candidateServices services serviceNames with
    | nil => simp [h]
    | cons p tl => simp [h]
  · intro hne hfail
    unfold collectEvents
    cases h : candidateServices services serviceNames with
    | nil => exact absurd h hne
    | cons p tl =>
        have hmerged : mergedEvents (p :: tl) = [] :=
          mergedEvents_all_fail (p :: tl) (h ▸ hfail)
        simp [h, hmerged]
        rfl

/-- Witness for C1 (amended) at a concrete all-failing candidate set. -/
theorem collectEvents_error_iff_witness :
    collectEvents [("a", FetchResult.fail), ("b", FetchResult.fail)]
      ["a", "b"] = Except.ok [] :=
  (collectEvents_error_iff [("a", FetchResult.fail), ("b", FetchResult.fail)]
    ["a", "b"]).2 (by decide) (by decide)

theorem collectEvents_ok_of_ne (services : List (String × FetchResult))
    (serviceNames : List String)
    (h : candidateServices services serviceNames ≠ []) :
    collectEvents services serviceNames =
      Except.ok (sortEventsByTimestamp
        (mergedEvents (candidateServices services serviceNames))) := by
  unfold collectEvents
  cases hc : candidateServices services serviceNames with
  | nil => exact absurd hc h
  | cons p tl => simp [hc]

/-- C7: with a non-empty service filter, exactly the named and initialized
services have their fetch invoked, each at most once; a name missing from
the initialized map is skipped, and as long as one filter name is
initialized the call does not fail. -/
theorem collectEvents_respects_filter (services : List (String × FetchResult))
    (serviceNames : List String) (h : serviceNames ≠ []) :
    (collectEventsCalls services serviceNames).Nodup ∧
    (∀ n, n ∈ collectEventsCalls services serviceNames ↔
        n ∈ serviceNames ∧ (assocFind services n).isSome) ∧
    ((∃ n ∈ serviceNames, (assocFind services n).isSome) →
      ∃ events, collectEvents services serviceNames = Except.ok events) := by
  have hne : serviceNames.isEmpty = false := by
    cases serviceNames with
    | nil => exact absurd rfl h
    | cons a tl => rfl
  have hcand : candidateServices services serviceNames =
      serviceNames.foldl
        (fun acc name =>
          match assocFind services name with
          | some client => assocSet acc name client
          | none => acc)
        [] := by
    unfold candidateServices
    rw [hne]
    rfl
  refine ⟨?_, ?_, ?_⟩
  · rw [collectEventsCalls_eq_keys, hcand]
    exact candidateFold_nodup services serviceNames [] (by simp)
  · intro n
    rw [collectEventsCalls_eq_keys, hcand, candidateFold_mem]
    simp
  · rintro ⟨n, hn, hsome⟩
    have hmem : n ∈ (candidateServices services serviceNames).map Prod.fst := by
      rw [hcand, candidateFold_mem]
      exact Or.inr ⟨hn, hsome⟩
    refine ⟨_, collectEvents_ok_of_ne services serviceNames ?_⟩
    intro hcon
    rw [hcon] at hmem
    cases hmem

/-- Witness for C7: filtering a two-service map to one name. -/
theorem collectEvents_respects_filter_witness :
    (collectEventsCalls sampleServices ["slack"]).Nodup ∧
    ("slack" ∈ collectEventsCalls sampleServices ["slack"] ∧
      "github" ∉ collectEventsCalls sampleServices ["slack"]) ∧
    (∃ events, collectEvents sampleServices ["slack"] = Except.ok events) := by
  have hmain := collectEvents_respects_filter sampleServices ["slack"]
    (by decide)
  refine ⟨hmain.1, ⟨?_, ?_⟩, hmain.2.2 ⟨"slack", by decide, by decide⟩⟩
  · exact (hmain.2.1 "slack").2 (by decide)
  · intro hcon
    have := (hmain.2.1 "github").1 hcon
    revert this
    decide

/-! ## Bubble-sort lemmas -/

theorem bubblePassUpTo_perm : ∀ (k : Nat) (l : List Event),
    (bubblePassUpTo k l).Perm l := by
  intro k
  induction k with
  | zero => intro l; exact List.Perm.refl l
  | succ k ih =>
      intro l
      match l with
      | [] => exact List.Perm.refl []
      | [a] => exact List.Perm.refl [a]
      | a :: b :: rest =>
          show (if tsAfter a.Timestamp b.Timestamp then
              b :: bubblePassUpTo k (a :: rest)
            else a :: bubblePassUpTo k (b :: rest)).Perm (a :: b :: rest)
          split_ifs with hc
          · exact ((ih (a :: rest)).cons b).trans (List.Perm.swap a b rest)
          · exact (ih (b :: rest)).cons a

theorem bubblePassUpTo_filter (t : Int) : ∀ (k : Nat) (l : List Event),
    (bubblePassUpTo k l).filter (fun e => decide (e.Timestamp = t)) =
      l.filter (fun e => decide (e.Timestamp = t)) := by
  intro k
  induction k with
  | zero => intro l; rfl
  | succ k ih =>
      intro l
      match l with
      | [] => rfl
      | [a] => rfl
      | a :: b :: rest =>
          show ((if tsAfter a.Timestamp b.Timestamp then
              b :: bubblePassUpTo k (a :: rest)
            else a :: bubblePassUpTo k (b :: rest)).filter
              (fun e => decide (e.Timestamp = t))) = _
          split_ifs with hc
          · have hlt : b.Timestamp < a.Timestamp := by
              simpa [tsAfter] using hc
            by_cases ha : a.Timestamp = t <;> by_cases hb : b.Timestamp = t
            · omega
            · simp [List.filter_cons, ha, hb, ih (a :: rest)]
            · simp [List.filter_cons, ha, hb, ih (a :: rest)]
            · simp [List.filter_cons, ha, hb, ih (a :: rest)]
          · by_cases ha : a.Timestamp = t <;>
              simp [List.filter_cons, ha, ih (b :: rest)]

theorem bubblePassUpTo_append : ∀ (k : Nat) (l₁ l₂ : List Event),
    l₁.length = k + 1 →
    bubblePassUpTo k (l₁ ++ l₂) = bubblePassUpTo k l₁ ++ l₂ := by
  intro k
  induction k with
  | zero => intro l₁ l₂ _; rfl
  | succ k ih =>
      intro l₁ l₂ hlen
      match l₁, hlen with
      | a :: b :: rest, hlen =>
          have hlen' : (a :: rest).length = k + 1 := by
            simp at hlen
            simp [hlen]
          have hlen'' : (b :: rest).length = k + 1 := by
            simp at hlen
            simp [hlen]
          show (if tsAfter a.Timestamp b.Timestamp then
              b :: bubblePassUpTo k (a :: (rest ++ l₂))
            else a :: bubblePassUpTo k (b :: (rest ++ l₂))) = _
          split_ifs with hc
          · rw [show (a :: (rest ++ l₂) : List Event) = (a :: rest) ++ l₂
              from rfl]
            rw [ih (a :: rest) l₂ hlen']
            show _ = (if tsAfter a.Timestamp b.Timestamp then
                b :: bubblePassUpTo k (a :: rest)
              else a :: bubblePassUpTo k (b :: rest)) ++ l₂
            rw [if_pos hc]
            rfl
          · rw [show (b :: (rest ++ l₂) : List Event) = (b :: rest) ++ l₂
              from rfl]
            rw [ih (b :: rest) l₂ hlen'']
            show _ = (if tsAfter a.Timestamp b.Timestamp then
                b :: bubblePassUpTo k (a :: rest)
              else a :: bubblePassUpTo k (b :: rest)) ++ l₂
            rw [if_neg hc]
            rfl

theorem bubblePass_last : ∀ (l : List Event) (a : Event),
    ∃ r x, bubblePassUpTo l.length (a :: l) = r ++ [x] ∧
      (r ++ [x]).Perm (a :: l) ∧ (∀ e ∈ r, tsLe e x) ∧
      (∀ e ∈ a :: l, tsLe e x) := by
  intro l
  induction l with
  | nil =>
      intro a
      refine ⟨[], a, rfl, List.Perm.refl [a], by simp, ?_⟩
      intro e he
      rw [List.mem_singleton] at he
      subst he
      exact le_refl e.Timestamp
  | cons b rest ih =>
      intro a
      show ∃ r x, (if tsAfter a.Timestamp b.Timestamp then
          b :: bubblePassUpTo rest.length (a :: rest)
        else a :: bubblePassUpTo rest.length (b :: rest)) = r ++ [x] ∧ _
      split_ifs with hc
      · have hlt : b.Timestamp < a.Timestamp := by simpa [tsAfter] using hc
        obtain ⟨r, x, hEq, hPerm, hR, hAll⟩ := ih a
        refine ⟨b :: r, x, by rw [hEq]; rfl, ?_, ?_, ?_⟩
        · show (b :: (r ++ [x])).Perm (a :: b :: rest)
          exact (hPerm.cons b).trans (List.Perm.swap a b rest)
        · intro e he
          rcases List.mem_cons.1 he with he | he
          · rw [he]
            exact le_trans (le_of_lt hlt) (hAll a (List.mem_cons_self a rest))
          · exact hR e he
        · intro e he
          rcases List.mem_cons.1 he with he | he
          · rw [he]
            exact hAll a (List.mem_cons_self a rest)
          · rcases List.mem_cons.1 he with he | he
            · rw [he]
              exact le_trans (le_of_lt hlt)
                (hAll a (List.mem_cons_self a rest))
            · exact hAll e (List.mem_cons_of_mem a he)
      · have hle : a.Timestamp ≤ b.Timestamp := by
          simp [tsAfter] at hc
          omega
        obtain ⟨r, x, hEq, hPerm, hR, hAll⟩ := ih b
        refine ⟨a :: r, x, by rw [hEq]; rfl, ?_, ?_, ?_⟩
        · show (a :: (r ++ [x])).Perm (a :: b :: rest)
          exact hPerm.cons a
        · intro e he
          rcases List.mem_cons.1 he with he | he
          · rw [he]
            exact le_trans hle (hAll b (List.mem_cons_self b rest))
          · exact hR e he
        · intro e he
          rcases List.mem_cons.1 he with he | he
          · rw [he]
            exact le_trans hle (hAll b (List.mem_cons_self b rest))
          · exact hAll e he

theorem bubblePass_takeDrop (k : Nat) (l : List Event)
    (h₁ : (l.drop (k + 2)).Pairwise tsLe)
    (h₂ : ∀ a ∈ l.take (k + 2), ∀ b ∈ l.drop (k + 2), tsLe a b) :
    ((bubblePassUpTo (k + 1) l).drop (k + 1)).Pairwise tsLe ∧
    (∀ a ∈ (bubblePassUpTo (k + 1) l).take (k + 1),
      ∀ b ∈ (bubblePassUpTo (k + 1) l).drop (k + 1), tsLe a b) := by
  by_cases hlen : l.length ≤ k + 1
  · have hnil : (bubblePassUpTo (k + 1) l).drop (k + 1) = [] := by
      apply List.drop_eq_nil_of_le
      rw [(bubblePassUpTo_perm (k + 1) l).length_eq]
      exact hlen
    rw [hnil]
    exact ⟨List.Pairwise.nil, fun a _ b hb => absurd hb (List.not_mem_nil b)⟩
  · push_neg at hlen
    have hsplit : l.take (k + 2) ++ l.drop (k + 2) = l := List.take_append_drop _ l
    have hfrontlen : (l.take (k + 2)).length = k + 2 := by
      rw [List.length_take]
      omega
    match hfront : l.take (k + 2), hfrontlen with
    | a :: front', hfrontlen =>
        have hfl : front'.length = k + 1 := by
          simp at hfrontlen
          omega
        obtain ⟨r, x, hEq, hPerm, hR, hAll⟩ := bubblePass_last front' a
        have hpass : bubblePassUpTo (k + 1) l =
            r ++ (x :: l.drop (k + 2)) := by
          conv_lhs => rw [← hsplit, hfront]
          rw [show ((a :: front') ++ l.drop (k + 2) : List Event) =
              (a :: front') ++ l.drop (k + 2) from rfl]
          rw [bubblePassUpTo_append (k + 1) (a :: front') (l.drop (k + 2))
            (by simp [hfl])]
          rw [show bubblePassUpTo (k + 1) (a :: front') =
              bubblePassUpTo front'.length (a :: front') from by rw [hfl]]
          rw [hEq, List.append_assoc]
          rfl
        have hrlen : r.length = k + 1 := by
          have := hPerm.length_eq
          simp at this
          omega
        have hdrop : (bubblePassUpTo (k + 1) l).drop (k + 1) =
            x :: l.drop (k + 2) := by
          rw [hpass, ← hrlen, List.drop_left]
        have htake : (bubblePassUpTo (k + 1) l).take (k + 1) = r := by
          rw [hpass, ← hrlen, List.take_left]
        have hmemfront : ∀ e ∈ r ++ [x], e ∈ l.take (k + 2) := by
          intro e he
          rw [hfront]
          exact hPerm.subset he
        constructor
        · rw [hdrop]
          rw [List.pairwise_cons]
          refine ⟨?_, h₁⟩
          intro b hb
          exact h₂ x (hmemfront x (by simp)) b hb
        · intro e he b hb
          rw [htake] at he
          rw [hdrop] at hb
          rcases List.mem_cons.1 hb with hb | hb
          · subst hb
            exact hR e he
          · exact h₂ e (hmemfront e (List.mem_append_left [x] he)) b hb

theorem sortPasses_sorted : ∀ (k : Nat) (l : List Event),
    (l.drop (k + 1)).Pairwise tsLe →
    (∀ a ∈ l.take (k + 1), ∀ b ∈ l.drop (k + 1), tsLe a b) →
    (sortPasses k l).Pairwise tsLe := by
  intro k
  induction k with
  | zero =>
      intro l h₁ h₂
      match l with
      | [] => exact List.Pairwise.nil
      | a :: tl =>
          show (a :: tl).Pairwise tsLe
          rw [List.pairwise_cons]
          refine ⟨?_, h₁⟩
          intro b hb
          exact h₂ a (by simp) b hb
  | succ k ih =>
      intro l h₁ h₂
      show (sortPasses k (bubblePassUpTo (k + 1) l)).Pairwise tsLe
      obtain ⟨g₁, g₂⟩ := bubblePass_takeDrop k l h₁ h₂
      exact ih (bubblePassUpTo (k + 1) l) g₁ g₂

theorem sortPasses_perm : ∀ (k : Nat) (l : List Event),
    (sortPasses k l).Perm l := by
  intro k
  induction k with
  | zero => intro l; exact List.Perm.refl l
  | succ k ih =>
      intro l
      exact (ih (bubblePassUpTo (k + 1) l)).trans (bubblePassUpTo_perm (k + 1) l)

theorem sortPasses_filter (t : Int) : ∀ (k : Nat) (l : List Event),
    (sortPasses k l).filter (fun e => decide (e.Timestamp = t)) =
      l.filter (fun e => decide (e.Timestamp = t)) := by
  intro k
  induction k with
  | zero => intro l; rfl
  | succ k ih =>
      intro l
      show (sortPasses k (bubblePassUpTo (k + 1) l)).filter _ = _
      rw [ih (bubblePassUpTo (k + 1) l), bubblePassUpTo_filter]

theorem sortEventsByTimestamp_perm (l : List Event) :
    (sortEventsByTimestamp l).Perm l :=
  sortPasses_perm (l.length - 1) l

theorem sortEventsByTimestamp_sorted (l : List Event) :
    (sortEventsByTimestamp l).Pairwise tsLe := by
  apply sortPasses_sorted (l.length - 1) l
  · rw [List.drop_eq_nil_of_le (by omega)]
    exact List.Pairwise.nil
  · intro a _ b hb
    rw [List.drop_eq_nil_of_le (by omega)] at hb
    exact absurd hb (List.not_mem_nil b)

/-- C10: the merge-step bubble sort swaps only on strictly-greater
timestamps, so it returns a permutation of its input in ascending timestamp
order in which events with equal timestamps keep their relative input order
(for every timestamp, filtering the output to that timestamp gives exactly
the input filtered to it, in input order). -/
theorem sortEventsByTimestamp_stable_sort (l : List Event) :
    (sortEventsByTimestamp l).Perm l ∧
    (sortEventsByTimestamp l).Pairwise tsLe ∧
    (∀ t : Int,
      (sortEventsByTimestamp l).filter (fun e => decide (e.Timestamp = t)) =
        l.filter (fun e => decide (e.Timestamp = t))) :=
  ⟨sortEventsByTimestamp_perm l, sortEventsByTimestamp_sorted l,
    fun t => sortPasses_filter t (l.length - 1) l⟩

/-! ## Partial-success merge (C2) -/

theorem mergedEvents_eq_flatten :
    ∀ (m : List (String × FetchResult)),
      mergedEvents m = (m.map (fun p => p.2.events)).flatten := by
  have hgen :
      ∀ (m : List (String × FetchResult)) (acc : List Event),
        (m.foldl
          (fun acc p =>
            match p.2 with
            | .ok evs => acc ++ evs
            | .fail => acc)
          acc) = acc ++ (m.map (fun p => p.2.events)).flatten := by
    intro m
    induction m with
    | nil => intro acc; simp
    | cons p tl ih =>
        intro acc
        rw [List.foldl_cons]
        cases hp : p.2 with
        | ok evs =>
            rw [ih (acc ++ evs)]
            simp [hp, FetchResult.events]
        | fail =>
            rw [ih acc]
            simp [hp, FetchResult.events]
  intro m
  exact hgen m []

/-- C2: whenever at least one candidate service succeeds, `CollectEvents`
returns a nil error together with exactly the multiset union of the events
of the successful fetches (a failing service contributes zero events and
does not prevent the others), sorted ascending by timestamp. -/
theorem collectEvents_partial_success (services : List (String × FetchResult))
    (serviceNames : List String)
    (h : ∃ p ∈ candidateServices services serviceNames, p.2.isOk) :
    ∃ events,
      collectEvents services serviceNames = Except.ok events ∧
      events.Perm ((candidateServices services serviceNames).map
        (fun p => p.2.events)).flatten ∧
      events.Pairwise tsLe := by
  obtain ⟨p, hp, _⟩ := h
  have hne : candidateServices services serviceNames ≠ [] := by
    intro hcon
    rw [hcon] at hp
    cases hp
  refine ⟨_, collectEvents_ok_of_ne services serviceNames hne, ?_, ?_⟩
  · rw [← mergedEvents_eq_flatten]
    exact sortEventsByTimestamp_perm _
  · exact sortEventsByTimestamp_sorted _

/-- Witness for C2: one succeeding and one failing service. -/
theorem collectEvents_partial_success_witness :
    ∃ events,
      collectEvents
        [("ok", FetchResult.ok [sampleEvent "e1" 5, sampleEvent "e2" 3]),
         ("failed", FetchResult.fail)] [] = Except.ok events ∧
      events.Perm (([("ok",
          FetchResult.ok [sampleEvent "e1" 5, sampleEvent "e2" 3]),
         ("failed", FetchResult.fail)].map
          (fun p => p.2.events)).flatten) ∧
      events.Pairwise tsLe :=
  collectEvents_partial_success
    [("ok", FetchResult.ok [sampleEvent "e1" 5, sampleEvent "e2" 3]),
     ("failed", FetchResult.fail)] []
    ⟨("ok", FetchResult.ok [sampleEvent "e1" 5, sampleEvent "e2" 3]),
      by decide, by decide⟩

/-! ## Range queries (C5) -/

theorem insertRowByTs_perm (r : String × EventRow) :
    ∀ (l : List (String × EventRow)), (insertRowByTs r l).Perm (r :: l) := by
  intro l
  induction l with
  | nil => exact List.Perm.refl [r]
  | cons x xs ih =>
      show (if r.2.timestamp < x.2.timestamp then r :: x :: xs
        else x :: insertRowByTs r xs).Perm (r :: x :: xs)
      split_ifs with hc
      · exact List.Perm.refl _
      · exact (ih.cons x).trans (List.Perm.swap r x xs)

theorem sortRowsByTs_perm :
    ∀ (l : List (String × EventRow)), (sortRowsByTs l).Perm l := by
  intro l
  induction l with
  | nil => exact List.Perm.refl []
  | cons x xs ih =>
      exact (insertRowByTs_perm x (sortRowsByTs xs)).trans (ih.cons x)

theorem insertRowByTs_pairwise (r : String × EventRow) :
    ∀ (l : List (String × EventRow)), l.Pairwise rowTsLe →
      (insertRowByTs r l).Pairwise rowTsLe := by
  intro l
  induction l with
  | nil => intro _; simp [insertRowByTs, List.pairwise_cons]
  | cons x xs ih =>
      intro h
      rw [List.pairwise_cons] at h
      show (if r.2.timestamp < x.2.timestamp then r :: x :: xs
        else x :: insertRowByTs r xs).Pairwise rowTsLe
      split_ifs with hc
      · rw [List.pairwise_cons]
        constructor
        · intro b hb
          rcases List.mem_cons.1 hb with hb | hb
          · rw [hb]
            exact le_of_lt hc
          · exact le_trans (le_of_lt hc) (h.1 b hb)
        · rw [List.pairwise_cons]
          exact h
      · rw [List.pairwise_cons]
        constructor
        · intro b hb
          rcases (insertRowByTs_perm r xs).mem_iff.1 hb with hb
          rcases List.mem_cons.1 hb with hb | hb
          · rw [hb]
            exact le_of_not_lt hc
          · exact h.1 b hb
        · exact ih h.2

theorem sortRowsByTs_pairwise :
    ∀ (l : List (String × EventRow)), (sortRowsByTs l).Pairwise rowTsLe := by
  intro l
  induction l with
  | nil => exact List.Pairwise.nil
  | cons x xs ih => exact insertRowByTs_pairwise x (sortRowsByTs xs) ih

/-- C5 counterexample: an event stored at the exact second 1970-01-01
00:00:00.0 UTC is returned by `GetEvents` although the requested start bound
00:00:00.5 (half a second later) is strictly after it: the bound lost its
fractional second when formatted with `"2006-01-02 15:04:05"`. -/
theorem getEvents_subsecond_counterexample :
    getEvents ⟨[("e1", eventRowOf (sampleEvent "e1" 0))], []⟩
        500000000 10000000000 [] =
      [("e1", eventRowOf (sampleEvent "e1" 0))] ∧
    (eventRowOf (sampleEvent "e1" 0)).timestamp < 500000000 := by
  constructor
  · rfl
  · decide

/-- C5 (amended): `GetEvents` compares the bounds and the stored timestamps
at whole-second granularity in UTC (both lose their sub-second fraction), so
a returned event can lie strictly outside `[start, end]` by under a second;
precisely, it returns exactly the stored rows whose second-truncated
timestamp lies in the inclusive interval of the second-truncated bounds
(restricted to the service allow-list when one is given), ordered ascending
by stored timestamp. -/
theorem getEvents_truncated_range (s : DBState) (startTime endTime : Int)
    (services : List String) :
    (∀ r, r ∈ getEvents s startTime endTime services ↔
        (r ∈ s.events ∧ floorSec startTime ≤ floorSec r.2.timestamp ∧
         floorSec r.2.timestamp ≤ floorSec endTime ∧
         (services = [] ∨ r.2.service ∈ services))) ∧
    (getEvents s startTime endTime services).Pairwise rowTsLe := by
  constructor
  · intro r
    unfold getEvents
    rw [(sortRowsByTs_perm _).mem_iff, List.mem_filter]
    unfold getEventsWhere
    simp [List.isEmpty_iff, and_assoc]
  · exact sortRowsByTs_pairwise _

end Worklogr
